import Mathlib

/- Shallow embedding of the password project (source/generator.py and
   source/vault.py).  Python strings are modelled as lists of characters,
   the defaultdict transition table as an association list kept in
   key-insertion order, the pickle payload by its logical content, and the
   process-wide random module as an explicit stream object threaded through
   every operation that draws from it. -/

namespace PsswdPrj

/-- A Markov state: a window of the normalized corpus, used as a table key. -/
abbrev MState := List Char

/-- The transition table `self.model`, a Python `defaultdict(list)`:
an association list in key-insertion order (new keys appended at the end,
successor characters appended at the end of the value list). -/
abbrev Table := List (MState × List Char)

/-- The character class of the regular expression `[a-zA-Z`, Cyrillic
а-я, А-Я, ё, Ё`]` used by `_preprocess_text`. -/
def isCorpusLetter (c : Char) : Bool :=
  ('a' ≤ c && c ≤ 'z') || ('A' ≤ c && c ≤ 'Z') ||
  ('а' ≤ c && c ≤ 'я') || ('А' ≤ c && c ≤ 'Я') || c == 'ё' || c == 'Ё'

/-- Python `str.lower` restricted to the character ranges this program
manipulates (ASCII Latin, the basic Cyrillic block and Ё); every other
character is left unchanged. -/
def pyLower (c : Char) : Char :=
  if 'A' ≤ c && c ≤ 'Z' then Char.ofNat (c.toNat + 32)
  else if 'А' ≤ c && c ≤ 'Я' then Char.ofNat (c.toNat + 32)
  else if c == 'Ё' then 'ё'
  else c

/-- `_preprocess_text`: drop every character outside the Latin/Cyrillic
letter set, then lower-case what remains. -/
def preprocess (text : List Char) : List Char :=
  (text.filter isCorpusLetter).map pyLower

/-- The Python slice `text[i : i + n]`. -/
def slice (text : List Char) (i n : Nat) : List Char :=
  (text.drop i).take n

/-- The character `text[i]`; total, with a default that the program never
reaches because it only indexes in range. -/
def nth (text : List Char) (i : Nat) : Char :=
  text.getD i 'a'

/-- Association-list lookup, `self.model.get(state)`: `none` when the key is
absent (no insertion happens on `.get`). -/
def lookupTable : Table → MState → Option (List Char)
  | [], _ => none
  | (k, v) :: rest, s => if k = s then some v else lookupTable rest s

/-- `list(self.model.keys())`, in insertion order. -/
def tableKeys (t : Table) : List MState := t.map Prod.fst

/-- `self.model[state].append(next_char)` on a `defaultdict(list)`: extend
the value list of an existing key in place, or insert a new key at the end
with the one-element list. -/
def appendEntry : Table → MState → Char → Table
  | [], k, c => [(k, [c])]
  | (k₁, v) :: rest, k, c =>
    if k₁ = k then (k₁, v ++ [c]) :: rest else (k₁, v) :: appendEntry rest k c

/-- Read access `self.model[state]` on a `defaultdict(list)`: a missing key
is inserted with an empty list; the possibly-grown table is returned so that
this mutation is visible to the theorems. -/
def dictGetItem (t : Table) (k : MState) : List Char × Table :=
  match lookupTable t k with
  | some v => (v, t)
  | none => ([], t ++ [(k, [])])

/-- One iteration of the model-building loop of `_build_model` at index `i`:
append `text[i+n]` to the entry of `text[i:i+n]`. -/
def buildStep (text : List Char) (n : Nat) (t : Table) (i : Nat) : Table :=
  appendEntry t (slice text i n) (nth text (i + n))

/-- The transition-table pass of `_build_model`: one linear pass over the
indices `i` in `[0, len(text) - n)`. -/
def buildTable (text : List Char) (n : Nat) : Table :=
  (List.range (text.length - n)).foldl (buildStep text n) []

/-- The start-state list comprehension of `_build_model`: the windows at
indices that sit at position 0 or are preceded by a space character (after
normalization no space survives, so only index 0 can qualify). -/
def preferredStarts (text : List Char) (n : Nat) : List MState :=
  (List.range (text.length - n)).filterMap
    (fun i => if i = 0 || nth text (i - 1) == ' ' then some (slice text i n) else none)

/-- The start-state selection of `_build_model`, with its fallback to every
table key when the comprehension produced nothing. -/
def buildStartStates (text : List Char) (n : Nat) : List MState :=
  let pref := preferredStarts text n
  if pref.isEmpty then tableKeys (buildTable text n) else pref

/-- The model triple held by a `MarkovPasswordGenerator`:
`self.chain_order`, `self.model` and `self.start_states`. -/
structure Model where
  order : Nat
  table : Table
  startStates : List MState
deriving DecidableEq

/-- `_build_model` applied to corpus text already read from disk: normalize,
raise `ValueError` (modelled as `none`) when nothing remains, otherwise
build the table and the start states for the given chain order. -/
def buildModel (raw : List Char) (n : Nat) : Option Model :=
  let text := preprocess raw
  if text.isEmpty then none
  else some ⟨n, buildTable text n, buildStartStates text n⟩

/-- The value list the specification prescribes for a state `s`: the
characters `text[i+n]` collected, in index order, over every `i` with
`text[i:i+n] = s`.  This definition follows the words of the specification
and is compared against `buildTable`, which follows the code. -/
def specSuccessors (text : List Char) (n : Nat) (s : MState) : List Char :=
  (List.range (text.length - n)).filterMap
    (fun i => if slice text i n = s then some (nth text (i + n)) else none)

/-- The value list actually stored for `s`, read through `lookupTable` with
the empty list for an absent key. -/
def getList (t : Table) (s : MState) : List Char :=
  match lookupTable t s with
  | some v => v
  | none => []

/-- The process-wide `random` source made explicit: `nats` feeds every
`random.choice` (the drawn value is reduced modulo the sequence length) and
`caps` feeds every `random.random() < probability` test of
`random_capitalize` (the probability is the fixed default 0.3, so only the
Boolean outcome of the comparison matters); `k` and `j` are the respective
read positions. -/
structure Rng where
  nats : Nat → Nat
  caps : Nat → Bool
  k : Nat
  j : Nat

/-- `random.choice(seq)`: the element at the next drawn index.  Total, with
`d` returned on an empty sequence where Python raises `IndexError`; the
theorems rely on it only at non-empty sequences. -/
def Rng.choice {α : Type} (r : Rng) (l : List α) (d : α) : α × Rng :=
  (l.getD (r.nats r.k % l.length) d, ⟨r.nats, r.caps, r.k + 1, r.j⟩)

/-- The outcome of one `random.random() < probability` test. -/
def Rng.capFlip (r : Rng) : Bool × Rng :=
  (r.caps r.j, ⟨r.nats, r.caps, r.k, r.j + 1⟩)

/-- Python `str.upper` restricted to the same ranges as `pyLower`. -/
def pyUpper (c : Char) : Char :=
  if 'a' ≤ c && c ≤ 'z' then Char.ofNat (c.toNat - 32)
  else if 'а' ≤ c && c ≤ 'я' then Char.ofNat (c.toNat - 32)
  else if c == 'ё' then 'Ё'
  else c

/-- Python `str.isalpha` restricted to the Latin/Cyrillic ranges in play. -/
def pyIsAlpha (c : Char) : Bool :=
  ('a' ≤ c && c ≤ 'z') || ('A' ≤ c && c ≤ 'Z') ||
  ('а' ≤ c && c ≤ 'я') || ('А' ≤ c && c ≤ 'Я') || c == 'ё' || c == 'Ё'

/-- `random_capitalize`: upper-case each alphabetic character when the next
draw fires.  The draw is consumed only for alphabetic characters, matching
the short-circuit of the conjunction in the source. -/
def randomCapitalize : List Char → Rng → List Char × Rng
  | [], r => ([], r)
  | c :: cs, r =>
    if pyIsAlpha c then
      let f := r.capFlip
      let rest := randomCapitalize cs f.2
      ((if f.1 then pyUpper c else c) :: rest.1, rest.2)
    else
      let rest := randomCapitalize cs r
      (c :: rest.1, rest.2)

/-- The Python slice `base[-order:]`; Python reads `[-0:]` as `[0:]`, the
whole string, hence the first branch. -/
def pyTailSlice (base : List Char) (order : Nat) : List Char :=
  if order = 0 then base else base.drop (base.length - order)

/-- The `while len(password_base) < length` loop of `generate`.  Each
iteration appends exactly one character, so the loop runs exactly
`length - len(base)` times; `fuel` bounds the remaining iterations while the
loop condition is still tested literally each time round.  `generate`
supplies the always-sufficient bound `length`, and the termination theorem
below shows every sufficient bound yields the loop's fixed point.  The value
threaded alongside the string is the transition table, because the
`defaultdict` read in the dead-end fallback could in principle mutate it. -/
def genLoop (order length : Nat) : Nat → List Char → Table → Rng → List Char × Table × Rng
  | 0, base, t, r => (base, t, r)
  | fuel + 1, base, t, r =>
    if base.length < length then
      match lookupTable t (pyTailSlice base order) with
      | some (c :: cs) =>
        let p := r.choice (c :: cs) 'a'
        genLoop order length fuel (base ++ [p.1]) t p.2
      | _ =>
        let q := r.choice (tableKeys t) []
        let g := dictGetItem t q.1
        let p := q.2.choice g.1 'a'
        genLoop order length fuel (base ++ [p.1]) g.2 p.2
    else (base, t, r)

/-- The sentinel text `generate` returns when the table is empty. -/
def modelNotBuiltMsg : List Char := "Ошибка: Модель не построена.".toList

/-- `generate`: the produced string together with the transition table as it
stands after the call and the advanced random source.  On an empty table the
method returns the sentinel message on its normal output channel. -/
def generate (m : Model) (length : Nat) (r : Rng) : List Char × Table × Rng :=
  if m.table.isEmpty then (modelNotBuiltMsg, m.table, r)
  else
    let s := r.choice m.startStates []
    let l := genLoop m.order length length s.1 m.table s.2
    let f := randomCapitalize (l.1.take length) l.2.2
    (f.1, l.2.1, f.2)

/-- The logical content of the pickle payload written by `_save_model`: a
dict with exactly the keys `model` and `start_states`.  The chain order is
not part of it.  Pickle serializes dicts, lists and strings faithfully, so
the payload is modelled by this record. -/
structure PersistedModel where
  model : Table
  start_states : List MState
deriving DecidableEq

/-- `_save_model`: the payload written to the model file. -/
def saveModel (m : Model) : PersistedModel := ⟨m.table, m.startStates⟩

/-- The successful path of `_load_model`: `self.model` and
`self.start_states` are overwritten from the payload while
`self.chain_order` keeps the value the constructor was given. -/
def loadPersisted (p : PersistedModel) (chainOrder : Nat) : Model :=
  ⟨chainOrder, p.model, p.start_states⟩

/-- The exceptions the body of `_load_model` can raise: `open` raises
`FileNotFoundError` on a missing file and `PermissionError` on an unreadable
one; `pickle.load` raises `pickle.UnpicklingError` on malformed data but
`EOFError` on a truncated stream; the subscript with the key `model` raises
`KeyError` on a payload lacking it. -/
inductive LoadExc where
  | fileNotFound
  | permissionError
  | unpicklingError
  | eofError
  | keyError
deriving DecidableEq

/-- What the environment does when `_load_model` runs: the file opens and
deserializes to a payload, or some step raises. -/
inductive LoadAttempt where
  | success (t : Table) (s : List MState)
  | failure (e : LoadExc)
deriving DecidableEq

/-- How a `_load_model` call ends: payload installed, model rebuilt and
resaved by the handler, or an exception propagated to the caller. -/
inductive LoadResult where
  | loaded (t : Table) (s : List MState)
  | rebuilt
  | fatal (e : LoadExc)
deriving DecidableEq

/-- The handler clause of `_load_model` catches exactly `FileNotFoundError`
and `pickle.UnpicklingError`. -/
def isCaught : LoadExc → Bool
  | .fileNotFound => true
  | .unpicklingError => true
  | _ => false

/-- `_load_model`: on success install the payload; on a caught exception
rebuild and resave; any other exception propagates. -/
def loadModel : LoadAttempt → LoadResult
  | .success t s => .loaded t s
  | .failure e => if isCaught e then .rebuilt else .fatal e

/-- The constructor dispatch of `MarkovPasswordGenerator`: load only when
the model file exists and no rebuild is forced, otherwise build and save. -/
def initModel (modelFileExists forceRebuild : Bool) (a : LoadAttempt) : LoadResult :=
  if modelFileExists && !forceRebuild then loadModel a else .rebuilt

/-- Python `str.lower` on a whole string. -/
def pyStrLower (s : List Char) : List Char := s.map pyLower

/-- One row of the `passwords` table: the unique `service` key, the
`username` and the Fernet token stored in `encrypted_password`. -/
structure VaultRecord where
  service : List Char
  username : List Char
  encrypted : List Char
deriving DecidableEq

/-- The `passwords` table, rows in insertion order. -/
abbrev VaultDB := List VaultRecord

/-- `add_password`: encrypt, then `INSERT OR REPLACE` keyed on the unique
`service` column with the lower-cased service name.  SQLite replaces a
conflicting row by deleting it and inserting the new one; `enc` stands for
the Fernet `encrypt` of the vault's key. -/
def addPassword (enc : List Char → List Char) (db : VaultDB)
    (service username plaintext : List Char) : VaultDB :=
  db.filter (fun row => !(row.service == pyStrLower service)) ++
    [⟨pyStrLower service, username, enc plaintext⟩]

/-- `get_password`: select by the lower-cased service name, then decrypt;
`dec` stands for the Fernet `decrypt` of the vault's key and returns `none`
where Fernet raises (wrong master password), which the method turns into
`None`. -/
def getPassword (dec : List Char → Option (List Char)) (db : VaultDB)
    (service : List Char) : Option (List Char × List Char) :=
  match db.find? (fun row => row.service == pyStrLower service) with
  | some row =>
    match dec row.encrypted with
    | some plain => some (row.username, plain)
    | none => none
  | none => none

/-- `delete_password`: delete by the lower-cased service name and report
whether any row went (`rowcount > 0`). -/
def deletePassword (db : VaultDB) (service : List Char) : Bool × VaultDB :=
  (db.any (fun row => row.service == pyStrLower service),
   db.filter (fun row => !(row.service == pyStrLower service)))

/-- Comparison of two service names in the order SQLite uses for `ORDER BY`
on a TEXT column: byte order of the UTF-8 encodings, which on valid UTF-8
coincides with code-point lexicographic order. -/
def lexLe : List Char → List Char → Bool
  | [], _ => true
  | _ :: _, [] => false
  | x :: xs, y :: ys => if x = y then lexLe xs ys else decide (x < y)

/-- Sorted insertion for `ORDER BY service`. -/
def insertService (x : List Char) : List (List Char) → List (List Char)
  | [] => [x]
  | y :: ys => if lexLe x y then x :: y :: ys else y :: insertService x ys

/-- Insertion sort for `ORDER BY service`. -/
def sortServices : List (List Char) → List (List Char)
  | [] => []
  | x :: xs => insertService x (sortServices xs)

/-- `list_services`: every stored service name, ordered by the `service`
column. -/
def listServices (db : VaultDB) : List (List Char) :=
  sortServices (db.map (fun row => row.service))

/-! Helper lemmas about the transition-table operations. -/

theorem getList_nil (s : MState) : getList [] s = [] := rfl

theorem getList_cons (k₁ : MState) (v : List Char) (rest : Table) (s : MState) :
    getList ((k₁, v) :: rest) s = if k₁ = s then v else getList rest s := by
  by_cases h : k₁ = s <;> simp [getList, lookupTable, h]

theorem getList_appendEntry (t : Table) (k : MState) (c : Char) (s : MState) :
    getList (appendEntry t k c) s = getList t s ++ (if k = s then [c] else []) := by
  induction t with
  | nil =>
    by_cases h : k = s <;> simp [appendEntry, getList, lookupTable, h]
  | cons p rest ih =>
    obtain ⟨k₁, v⟩ := p
    by_cases h₁ : k₁ = k
    · subst h₁
      by_cases h₂ : k₁ = s
      · subst h₂
        simp [appendEntry, getList_cons]
      · simp [appendEntry, getList_cons, h₂]
    · by_cases h₂ : k₁ = s
      · subst h₂
        have hk : ¬ k = k₁ := fun h => h₁ h.symm
        simp [appendEntry, getList_cons, h₁, hk]
      · simp [appendEntry, getList_cons, h₁, h₂, ih]

theorem getList_foldl (text : List Char) (n : Nat) (s : MState) :
    ∀ (l : List Nat) (t : Table),
      getList (l.foldl (buildStep text n) t) s =
        getList t s ++ l.filterMap
          (fun i => if slice text i n = s then some (nth text (i + n)) else none) := by
  intro l
  induction l with
  | nil => intro t; simp
  | cons i l ih =>
    intro t
    by_cases h : slice text i n = s
    · simp [List.foldl_cons, ih, buildStep, getList_appendEntry, h]
    · simp [List.foldl_cons, ih, buildStep, getList_appendEntry, h]

theorem getList_buildTable (text : List Char) (n : Nat) (s : MState) :
    getList (buildTable text n) s = specSuccessors text n s := by
  simpa [buildTable, specSuccessors] using
    getList_foldl text n s (List.range (text.length - n)) []

theorem appendEntry_values_ne_nil (t : Table) (k : MState) (c : Char)
    (h : ∀ p ∈ t, p.2 ≠ []) : ∀ p ∈ appendEntry t k c, p.2 ≠ [] := by
  induction t with
  | nil =>
    intro p hp
    simp [appendEntry] at hp
    subst hp
    simp
  | cons q rest ih =>
    obtain ⟨k₁, v⟩ := q
    by_cases h₁ : k₁ = k
    · intro p hp
      simp [appendEntry, h₁] at hp
      rcases hp with hp | hp
      · subst hp; simp
      · exact h p (List.mem_cons_of_mem _ hp)
    · intro p hp
      simp only [appendEntry, h₁, if_false] at hp
      rcases List.mem_cons.mp hp with hp | hp
      · subst hp
        exact h (k₁, v) (List.mem_cons_self _ _)
      · exact ih (fun q hq => h q (List.mem_cons_of_mem _ hq)) p hp

theorem buildTable_values_ne_nil (text : List Char) (n : Nat) :
    ∀ p ∈ buildTable text n, p.2 ≠ [] := by
  have key : ∀ (l : List Nat) (t : Table), (∀ p ∈ t, p.2 ≠ []) →
      ∀ p ∈ l.foldl (buildStep text n) t, p.2 ≠ [] := by
    intro l
    induction l with
    | nil => intro t ht; simpa using ht
    | cons i l ih =>
      intro t ht
      exact ih _ (appendEntry_values_ne_nil t _ _ ht)
  exact key _ [] (by simp)

theorem buildTable_ne_nil (text : List Char) (n : Nat)
    (h : n + 1 ≤ text.length) : buildTable text n ≠ [] := by
  have hmem : 0 ∈ List.range (text.length - n) := by
    rw [List.mem_range]; omega
  have hspec : nth text (0 + n) ∈ specSuccessors text n (slice text 0 n) := by
    refine List.mem_filterMap.mpr ⟨0, hmem, ?_⟩
    simp
  have hne : specSuccessors text n (slice text 0 n) ≠ [] :=
    List.ne_nil_of_mem hspec
  intro hnil
  have := getList_buildTable text n (slice text 0 n)
  rw [hnil, getList_nil] at this
  exact hne this.symm

/-- C3: building performs one pass appending `text[i+n]` to the entry of
`text[i:i+n]` — the stored value list of any state equals the successor
list the specification prescribes — and for any corpus with at least
`order + 1` letters after normalization, `build` succeeds with a non-empty
transition table. -/
theorem buildTable_one_pass_spec :
    (∀ (text : List Char) (n : Nat) (s : MState),
      getList (buildTable text n) s = specSuccessors text n s) ∧
    ∀ (raw : List Char) (n : Nat), n + 1 ≤ (preprocess raw).length →
      ∃ m, buildModel raw n = some m ∧ m.table ≠ [] := by
  refine ⟨getList_buildTable, ?_⟩
  intro raw n h
  have hne : ¬ (preprocess raw).isEmpty := by
    rw [List.isEmpty_iff]
    intro hnil
    rw [hnil] at h
    simp at h
  refine ⟨⟨n, buildTable (preprocess raw) n, buildStartStates (preprocess raw) n⟩, ?_, ?_⟩
  · simp [buildModel, hne]
  · exact buildTable_ne_nil _ _ h

/-- Witness for C3 on the corpus `abcd` with order 2. -/
theorem buildTable_one_pass_spec_witness :
    2 + 1 ≤ (preprocess "abcd".toList).length ∧
      ∃ m, buildModel "abcd".toList 2 = some m ∧ m.table ≠ [] :=
  ⟨by decide, buildTable_one_pass_spec.2 "abcd".toList 2 (by decide)⟩

/-- C8: every model `build` produces has only non-empty successor lists, has
start states whenever it has transitions, and falls back to the full key
list of the table when the preferred-start comprehension found nothing. -/
theorem buildModel_invariants (raw : List Char) (n : Nat) (m : Model)
    (h : buildModel raw n = some m) :
    (∀ p ∈ m.table, p.2 ≠ []) ∧
    (m.table ≠ [] → m.startStates ≠ []) ∧
    (preferredStarts (preprocess raw) n = [] →
      m.startStates = tableKeys m.table) := by
  have hm : m = ⟨n, buildTable (preprocess raw) n, buildStartStates (preprocess raw) n⟩ := by
    by_cases he : (preprocess raw).isEmpty
    · simp [buildModel, he] at h
    · simp [buildModel, he] at h
      exact h.symm
  subst hm
  refine ⟨buildTable_values_ne_nil _ _, ?_, ?_⟩
  · intro ht
    simp only [buildStartStates]
    by_cases hp : (preferredStarts (preprocess raw) n).isEmpty = true
    · rw [if_pos hp]
      simpa [tableKeys] using ht
    · rw [if_neg hp]
      exact fun hnil => hp (by simp [hnil])
  · intro hp
    simp [buildStartStates, hp]

/-- Witness for C8 on the corpus `abcd` with order 2. -/
theorem buildModel_invariants_witness :
    buildModel "abcd".toList 2 =
      some ⟨2, [(['a', 'b'], ['c']), (['b', 'c'], ['d'])], [['a', 'b']]⟩ ∧
    ((∀ p ∈ ([(['a', 'b'], ['c']), (['b', 'c'], ['d'])] : Table), p.2 ≠ []) ∧
      (([(['a', 'b'], ['c']), (['b', 'c'], ['d'])] : Table) ≠ [] →
        ([['a', 'b']] : List MState) ≠ []) ∧
      (preferredStarts (preprocess "abcd".toList) 2 = [] →
        ([['a', 'b']] : List MState) =
          tableKeys [(['a', 'b'], ['c']), (['b', 'c'], ['d'])])) :=
  ⟨by decide,
    buildModel_invariants "abcd".toList 2
      ⟨2, [(['a', 'b'], ['c']), (['b', 'c'], ['d'])], [['a', 'b']]⟩ (by decide)⟩

/-! Helper lemmas about the generation loop. -/

theorem randomCapitalize_length (s : List Char) :
    ∀ r : Rng, ((randomCapitalize s r).1).length = s.length := by
  induction s with
  | nil => intro r; simp [randomCapitalize]
  | cons c cs ih =>
    intro r
    by_cases h : pyIsAlpha c = true <;> simp [randomCapitalize, h, ih]

theorem genLoop_length (o L : Nat) :
    ∀ (fuel : Nat) (base : List Char) (t : Table) (r : Rng),
      L - base.length ≤ fuel →
      ((genLoop o L fuel base t r).1).length = base.length + (L - base.length) := by
  intro fuel
  induction fuel with
  | zero =>
    intro base t r h
    simp [genLoop]
    omega
  | succ n ih =>
    intro base t r h
    by_cases hb : base.length < L
    · have hstep : ∀ (x : Char) (t₂ : Table) (r₂ : Rng),
          ((genLoop o L n (base ++ [x]) t₂ r₂).1).length =
            base.length + (L - base.length) := by
        intro x t₂ r₂
        have := ih (base ++ [x]) t₂ r₂ (by simp; omega)
        simp at this
        omega
      rcases hl : lookupTable t (pyTailSlice base o) with _ | v
      · simp only [genLoop, hl, if_pos hb]
        exact hstep _ _ _
      · rcases v with _ | ⟨c, cs⟩
        · simp only [genLoop, hl, if_pos hb]
          exact hstep _ _ _
        · simp only [genLoop, hl, if_pos hb]
          exact hstep _ _ _
    · simp [genLoop, hb]
      omega

theorem genLoop_stable (o L : Nat) :
    ∀ (fuel : Nat) (base : List Char) (t : Table) (r : Rng),
      L - base.length ≤ fuel →
      genLoop o L fuel base t r = genLoop o L (L - base.length) base t r := by
  intro fuel
  induction fuel with
  | zero =>
    intro base t r h
    have h0 : L - base.length = 0 := by omega
    rw [h0]
  | succ n ih =>
    intro base t r h
    by_cases hb : base.length < L
    · obtain ⟨k, hk⟩ : ∃ k, L - base.length = k + 1 := ⟨L - base.length - 1, by omega⟩
      have hk' : ∀ x : Char, L - (base ++ [x]).length = k := by
        intro x; simp; omega
      have hstep : ∀ (x : Char) (t₂ : Table) (r₂ : Rng),
          genLoop o L n (base ++ [x]) t₂ r₂ = genLoop o L k (base ++ [x]) t₂ r₂ := by
        intro x t₂ r₂
        have h₁ := ih (base ++ [x]) t₂ r₂ (by simp; omega)
        rw [hk' x] at h₁
        exact h₁
      rw [hk]
      rcases hl : lookupTable t (pyTailSlice base o) with _ | v
      · simp only [genLoop, hl, if_pos hb]
        exact hstep _ _ _
      · rcases v with _ | ⟨c, cs⟩
        · simp only [genLoop, hl, if_pos hb]
          exact hstep _ _ _
        · simp only [genLoop, hl, if_pos hb]
          exact hstep _ _ _
    · have h0 : L - base.length = 0 := by omega
      rw [h0]
      simp [genLoop, hb]

theorem getD_mem {α : Type} :
    ∀ (l : List α) (i : Nat) (d : α), i < l.length → l.getD i d ∈ l := by
  intro l
  induction l with
  | nil => intro i d h; simp at h
  | cons a as ih =>
    intro i d h
    cases i with
    | zero => simp
    | succ m =>
      simp only [List.getD_cons_succ]
      exact List.mem_cons_of_mem _ (ih m d (by simpa using h))

theorem lookupTable_of_mem_keys :
    ∀ (t : Table) (s : MState), s ∈ tableKeys t → ∃ v, lookupTable t s = some v := by
  intro t
  induction t with
  | nil => intro s hs; simp [tableKeys] at hs
  | cons p rest ih =>
    obtain ⟨k, v⟩ := p
    intro s hs
    by_cases h : k = s
    · exact ⟨v, by simp [lookupTable, h]⟩
    · have : s ∈ tableKeys rest := by
        simp [tableKeys] at hs ⊢
        rcases hs with hs | hs
        · exact absurd hs.symm h
        · exact hs
      rcases ih s this with ⟨w, hw⟩
      exact ⟨w, by simp [lookupTable, h, hw]⟩

theorem genLoop_table (o L : Nat) :
    ∀ (fuel : Nat) (base : List Char) (t : Table) (r : Rng),
      t ≠ [] → (genLoop o L fuel base t r).2.1 = t := by
  intro fuel
  induction fuel with
  | zero => intro base t r _; simp [genLoop]
  | succ n ih =>
    intro base t r ht
    by_cases hb : base.length < L
    · rcases hl : lookupTable t (pyTailSlice base o) with _ | v
      · have hkey : (tableKeys t).getD (r.nats r.k % (tableKeys t).length) [] ∈ tableKeys t := by
          apply getD_mem
          apply Nat.mod_lt
          simp [tableKeys]
          exact List.length_pos.mpr ht
        rcases lookupTable_of_mem_keys t _ hkey with ⟨w, hw⟩
        simp only [genLoop, hl, if_pos hb, Rng.choice, dictGetItem, hw]
        exact ih _ t _ ht
      · rcases v with _ | ⟨c, cs⟩
        · have hkey : (tableKeys t).getD (r.nats r.k % (tableKeys t).length) [] ∈ tableKeys t := by
            apply getD_mem
            apply Nat.mod_lt
            simp [tableKeys]
            exact List.length_pos.mpr ht
          rcases lookupTable_of_mem_keys t _ hkey with ⟨w, hw⟩
          simp only [genLoop, hl, if_pos hb, Rng.choice, dictGetItem, hw]
          exact ih _ t _ ht
        · simp only [genLoop, hl, if_pos hb]
          exact ih _ t _ ht
    · simp [genLoop, hb]

/-- C1: for every model with a non-empty transition table, non-empty start
states and requested `length ≥ 1`, `generate` returns a string of exactly
`length` characters. -/
theorem generate_length_exact (m : Model) (L : Nat) (r : Rng)
    (ht : m.table ≠ []) (hs : m.startStates ≠ []) (hL : 1 ≤ L) :
    ((generate m L r).1).length = L := by
  have he : m.table.isEmpty = false := by
    rw [List.isEmpty_eq_false]
    exact ht
  simp only [generate, he, Bool.false_eq_true, if_false]
  rw [randomCapitalize_length, List.length_take]
  rw [genLoop_length m.order L L _ m.table _ (Nat.sub_le _ _)]
  omega

/-- Witness for C1: a two-state model generates an 8-character string. -/
theorem generate_length_exact_witness :
    (([(['a', 'b'], ['c']), (['b', 'c'], ['d', 'a'])] : Table) ≠ [] ∧
      ([['a', 'b']] : List MState) ≠ [] ∧ 1 ≤ 8) ∧
    ((generate ⟨2, [(['a', 'b'], ['c']), (['b', 'c'], ['d', 'a'])], [['a', 'b']]⟩ 8
        ⟨fun i => i, fun _ => false, 0, 0⟩).1).length = 8 :=
  ⟨⟨by decide, by decide, by decide⟩,
    generate_length_exact
      ⟨2, [(['a', 'b'], ['c']), (['b', 'c'], ['d', 'a'])], [['a', 'b']]⟩ 8
      ⟨fun i => i, fun _ => false, 0, 0⟩ (by decide) (by decide) (by decide)⟩

/-- C6: with a non-empty transition table the generation loop terminates by
making length progress every iteration: its result extends the base to
exactly `base.length + (length - base.length)` characters — that is,
`length - N` appended characters for a length-`N` base when `length`
exceeds `N`, and zero otherwise — and any sufficient iteration bound yields
the same fixed point as the exact bound `length - base.length`, so the
dead-end fallback never stalls the loop. -/
theorem genLoop_terminates (o L fuel : Nat) (base : List Char) (t : Table)
    (r : Rng) (ht : t ≠ []) (hfuel : L - base.length ≤ fuel) :
    ((genLoop o L fuel base t r).1).length = base.length + (L - base.length) ∧
    genLoop o L fuel base t r = genLoop o L (L - base.length) base t r :=
  ⟨genLoop_length o L fuel base t r hfuel, genLoop_stable o L fuel base t r hfuel⟩

/-- Witness for C6: a model with a dead end (state `bc` leads to suffix
`cd`, which is absent) still completes, appending `8 - 2` characters. -/
theorem genLoop_terminates_witness :
    (([(['a', 'b'], ['c']), (['b', 'c'], ['d', 'a'])] : Table) ≠ [] ∧
      8 - (['a', 'b'] : List Char).length ≤ 20) ∧
    (((genLoop 2 8 20 ['a', 'b'] [(['a', 'b'], ['c']), (['b', 'c'], ['d', 'a'])]
        ⟨fun i => i, fun _ => false, 0, 0⟩).1).length =
      (['a', 'b'] : List Char).length + (8 - (['a', 'b'] : List Char).length) ∧
      genLoop 2 8 20 ['a', 'b'] [(['a', 'b'], ['c']), (['b', 'c'], ['d', 'a'])]
          ⟨fun i => i, fun _ => false, 0, 0⟩ =
        genLoop 2 8 (8 - (['a', 'b'] : List Char).length) ['a', 'b']
          [(['a', 'b'], ['c']), (['b', 'c'], ['d', 'a'])]
          ⟨fun i => i, fun _ => false, 0, 0⟩) :=
  ⟨⟨by decide, by decide⟩,
    genLoop_terminates 2 8 20 ['a', 'b']
      [(['a', 'b'], ['c']), (['b', 'c'], ['d', 'a'])]
      ⟨fun i => i, fun _ => false, 0, 0⟩ (by decide) (by decide)⟩

/-- C9: a `generate` call leaves the transition table exactly as it found
it — same keys and same successor lists — even when dead-end suffixes send
the loop through the fallback's `defaultdict` read; the start-state list has
no write access anywhere in `generate`, so it is unchanged by construction. -/
theorem generate_preserves_model (m : Model) (L : Nat) (r : Rng) :
    (generate m L r).2.1 = m.table := by
  by_cases he : m.table.isEmpty = true
  · simp [generate, he]
  · have ht : m.table ≠ [] := by
      intro hnil
      exact he (by simp [hnil])
    have he' : m.table.isEmpty = false := by
      rw [List.isEmpty_eq_false]
      exact ht
    simp only [generate, he', Bool.false_eq_true, if_false]
    exact genLoop_table m.order L L _ m.table _ ht

/-- C2, counterexample: on the empty model `generate` does not fail with a
distinct error — its normal output channel carries the human-readable
sentinel text `Ошибка: Модель не построена.` (28 characters, not the 12
requested), exactly the disguised-as-a-password string the claim rules
out. -/
theorem generate_empty_returns_sentinel :
    (generate ⟨2, [], []⟩ 12 ⟨fun i => i, fun _ => false, 0, 0⟩).1 =
      modelNotBuiltMsg ∧
    ((generate ⟨2, [], []⟩ 12 ⟨fun i => i, fun _ => false, 0, 0⟩).1).length ≠ 12 :=
  ⟨rfl, by decide⟩

/-- C2, amended: when the transition table is empty, `generate` returns the
fixed human-readable string `Ошибка: Модель не построена.` on its normal
output channel instead of raising an error, leaving the table and the
random source untouched. -/
theorem generate_empty_sentinel (m : Model) (L : Nat) (r : Rng)
    (h : m.table = []) : generate m L r = (modelNotBuiltMsg, m.table, r) := by
  have he : m.table.isEmpty = true := by simp [h]
  simp [generate, he]

/-- Witness for the amended C2. -/
theorem generate_empty_sentinel_witness :
    (Model.mk 2 [] []).table = [] ∧
    generate ⟨2, [], []⟩ 5 ⟨fun i => i, fun _ => false, 0, 0⟩ =
      (modelNotBuiltMsg, (Model.mk 2 [] []).table, ⟨fun i => i, fun _ => false, 0, 0⟩) :=
  ⟨rfl, generate_empty_sentinel ⟨2, [], []⟩ 5 ⟨fun i => i, fun _ => false, 0, 0⟩ rfl⟩

/-- C4, counterexample: the payload `_save_model` writes holds only the
transition table and the start states, so a generator configured with the
default chain order 2 that loads a model saved with order 3 ends up with a
structurally different model — the round trip is not independent of the
persisted format's internals, which silently drop the order. -/
theorem roundTrip_drops_order :
    loadPersisted (saveModel ⟨3, [(['a', 'b', 'c'], ['d'])], [['a', 'b', 'c']]⟩) 2 ≠
      ⟨3, [(['a', 'b', 'c'], ['d'])], [['a', 'b', 'c']]⟩ := by
  decide

/-- C4, amended: saving and then loading restores the transition entries
(with duplicate counts) and the start states exactly; the chain order is not
part of the persisted payload but is taken from the loading generator's
configuration, so the loaded model is structurally equal to the original
precisely when that configured order equals the original's. -/
theorem roundTrip_restores_table_and_starts (m : Model) (chainOrder : Nat) :
    (loadPersisted (saveModel m) chainOrder).table = m.table ∧
    (loadPersisted (saveModel m) chainOrder).startStates = m.startStates ∧
    loadPersisted (saveModel m) m.order = m := by
  refine ⟨rfl, rfl, ?_⟩
  cases m
  rfl

/-- C5, counterexample: an unreadable model file (a `PermissionError` from
`open`) is not in the caught exception tuple, so `_load_model` surfaces it
to the caller as a fatal error instead of treating it as a cache miss. -/
theorem load_permission_error_fatal :
    loadModel (.failure .permissionError) = .fatal .permissionError ∧
    loadModel (.failure .permissionError) ≠ .rebuilt := by
  exact ⟨rfl, by decide⟩

/-- C5, amended: `_load_model` treats exactly a missing file
(`FileNotFoundError`) and a pickle `UnpicklingError` as the cache miss that
triggers rebuild-and-resave; every other failure — an unreadable file, a
truncated stream (`EOFError`), a payload without the expected key
(`KeyError`) — propagates to the caller as a fatal error.  The constructor
also rebuilds without a load attempt when the model file does not exist. -/
theorem loadModel_catch_spec (e : LoadExc) (t : Table) (s : List MState)
    (a : LoadAttempt) (f : Bool) :
    loadModel (.success t s) = .loaded t s ∧
    (loadModel (.failure e) = .rebuilt ↔
      e = .fileNotFound ∨ e = .unpicklingError) ∧
    (e ≠ .fileNotFound → e ≠ .unpicklingError →
      loadModel (.failure e) = .fatal e) ∧
    initModel false f a = .rebuilt := by
  refine ⟨rfl, ?_, ?_, rfl⟩
  · cases e <;> simp [loadModel, isCaught]
  · intro h₁ h₂
    cases e <;> simp_all [loadModel, isCaught]

/-- Witness for the amended C5 at the truncated-stream failure. -/
theorem loadModel_catch_spec_witness :
    loadModel (.failure .eofError) = .fatal .eofError :=
  (loadModel_catch_spec .eofError [] [] (.failure .eofError) false).2.2.1
    (by decide) (by decide)

/-- Two random sources are in agreement when, from their current read
positions on, they will emit the same sequence of draws — the formal content
of "the same seeded pseudorandom source" for start-state selection,
transition sampling and capitalization alike. -/
def RngAgree (a b : Rng) : Prop :=
  (∀ i, a.nats (a.k + i) = b.nats (b.k + i)) ∧
  (∀ i, a.caps (a.j + i) = b.caps (b.j + i))

theorem RngAgree.refl (a : Rng) : RngAgree a a :=
  ⟨fun _ => rfl, fun _ => rfl⟩

theorem choice_agree {α : Type} (l : List α) (d : α) {a b : Rng}
    (h : RngAgree a b) :
    (a.choice l d).1 = (b.choice l d).1 ∧
    RngAgree (a.choice l d).2 (b.choice l d).2 := by
  constructor
  · have h0 := h.1 0
    simp only [Nat.add_zero] at h0
    simp [Rng.choice, h0]
  · constructor
    · intro i
      have h1 := h.1 (1 + i)
      simp only [Rng.choice]
      rw [Nat.add_assoc a.k 1 i, Nat.add_assoc b.k 1 i]
      exact h1
    · intro i
      exact h.2 i

theorem capFlip_agree {a b : Rng} (h : RngAgree a b) :
    (a.capFlip).1 = (b.capFlip).1 ∧ RngAgree (a.capFlip).2 (b.capFlip).2 := by
  constructor
  · have h0 := h.2 0
    simp only [Nat.add_zero] at h0
    simp [Rng.capFlip, h0]
  · constructor
    · intro i
      exact h.1 i
    · intro i
      have h1 := h.2 (1 + i)
      simp only [Rng.capFlip]
      rw [Nat.add_assoc a.j 1 i, Nat.add_assoc b.j 1 i]
      exact h1

theorem genLoop_agree (o L : Nat) :
    ∀ (fuel : Nat) (base : List Char) (t : Table) (r₁ r₂ : Rng),
      RngAgree r₁ r₂ →
      (genLoop o L fuel base t r₁).1 = (genLoop o L fuel base t r₂).1 ∧
      (genLoop o L fuel base t r₁).2.1 = (genLoop o L fuel base t r₂).2.1 ∧
      RngAgree (genLoop o L fuel base t r₁).2.2 (genLoop o L fuel base t r₂).2.2 := by
  intro fuel
  induction fuel with
  | zero =>
    intro base t r₁ r₂ h
    exact ⟨rfl, rfl, h⟩
  | succ n ih =>
    intro base t r₁ r₂ h
    by_cases hb : base.length < L
    · rcases hl : lookupTable t (pyTailSlice base o) with _ | v
      · have hq := choice_agree (tableKeys t) ([] : MState) h
        have hp := choice_agree (dictGetItem t (r₂.choice (tableKeys t) []).1).1 'a' hq.2
        simp only [genLoop, hl, if_pos hb, hq.1]
        rw [hp.1]
        exact ih _ _ _ _ hp.2
      · rcases v with _ | ⟨c, cs⟩
        · have hq := choice_agree (tableKeys t) ([] : MState) h
          have hp := choice_agree (dictGetItem t (r₂.choice (tableKeys t) []).1).1 'a' hq.2
          simp only [genLoop, hl, if_pos hb, hq.1]
          rw [hp.1]
          exact ih _ _ _ _ hp.2
        · have hp := choice_agree (c :: cs) 'a' h
          simp only [genLoop, hl, if_pos hb]
          rw [hp.1]
          exact ih _ _ _ _ hp.2
    · simp only [genLoop, if_neg hb]
      exact ⟨trivial, trivial, h⟩

theorem randomCapitalize_agree (s : List Char) :
    ∀ {r₁ r₂ : Rng}, RngAgree r₁ r₂ →
      (randomCapitalize s r₁).1 = (randomCapitalize s r₂).1 ∧
      RngAgree (randomCapitalize s r₁).2 (randomCapitalize s r₂).2 := by
  induction s with
  | nil => intro r₁ r₂ h; exact ⟨rfl, h⟩
  | cons c cs ih =>
    intro r₁ r₂ h
    by_cases hc : pyIsAlpha c = true
    · have hf := capFlip_agree h
      have hrest := ih hf.2
      simp only [randomCapitalize, hc, if_true]
      rw [hf.1, hrest.1]
      exact ⟨rfl, hrest.2⟩
    · have hrest := ih h
      simp only [randomCapitalize, hc, if_false]
      rw [hrest.1]
      exact ⟨rfl, hrest.2⟩

/-- C7: for a fixed model, a fixed requested length and a fixed seeded
random source — two sources that will emit the same draw sequences for
start-state selection, transition sampling and capitalization — two calls
to `generate` produce identical output strings. -/
theorem generate_deterministic (m : Model) (L : Nat) (r₁ r₂ : Rng)
    (h : RngAgree r₁ r₂) : (generate m L r₁).1 = (generate m L r₂).1 := by
  by_cases he : m.table.isEmpty = true
  · simp [generate, he]
  · simp only [generate, he, Bool.false_eq_true, if_false]
    have hs := choice_agree m.startStates ([] : MState) h
    rw [hs.1]
    have hloop := genLoop_agree m.order L L (r₂.choice m.startStates []).1 m.table
      (r₁.choice m.startStates []).2 (r₂.choice m.startStates []).2 hs.2
    have hcap := randomCapitalize_agree
      (((genLoop m.order L L (r₂.choice m.startStates []).1 m.table
          (r₂.choice m.startStates []).2).1).take L) hloop.2.2
    rw [hloop.1]
    exact hcap.1

/-- Witness for C7: two sources with different read positions but the same
upcoming draws produce the same password. -/
theorem generate_deterministic_witness :
    RngAgree ⟨fun i => i, fun _ => false, 2, 0⟩ ⟨fun i => i + 2, fun _ => false, 0, 0⟩ ∧
    (generate ⟨2, [(['a', 'b'], ['c']), (['b', 'c'], ['d', 'a'])], [['a', 'b']]⟩ 8
        ⟨fun i => i, fun _ => false, 2, 0⟩).1 =
      (generate ⟨2, [(['a', 'b'], ['c']), (['b', 'c'], ['d', 'a'])], [['a', 'b']]⟩ 8
        ⟨fun i => i + 2, fun _ => false, 0, 0⟩).1 := by
  have h : RngAgree ⟨fun i => i, fun _ => false, 2, 0⟩
      ⟨fun i => i + 2, fun _ => false, 0, 0⟩ := by
    refine ⟨fun i => ?_, fun i => rfl⟩
    simp [Nat.add_comm]
  exact ⟨h, generate_deterministic
    ⟨2, [(['a', 'b'], ['c']), (['b', 'c'], ['d', 'a'])], [['a', 'b']]⟩ 8
    ⟨fun i => i, fun _ => false, 2, 0⟩ ⟨fun i => i + 2, fun _ => false, 0, 0⟩ h⟩

/-! Helper lemmas about the vault. -/

theorem find?_filter_self_none (db : VaultDB) (key : List Char) :
    (db.filter (fun row => !(row.service == key))).find?
      (fun row => row.service == key) = none := by
  induction db with
  | nil => rfl
  | cons row rows ih =>
    by_cases h : row.service = key
    · simp [List.filter_cons, h, ih]
    · simp [List.filter_cons, h, List.find?_cons, ih]

theorem find?_append_of_none {α : Type} (l₁ l₂ : List α) (p : α → Bool)
    (h : l₁.find? p = none) : (l₁ ++ l₂).find? p = l₂.find? p := by
  induction l₁ with
  | nil => simp
  | cons a l ih =>
    rcases hp : p a with _ | _
    · simp only [List.find?_cons, hp] at h
      simp only [List.cons_append, List.find?_cons, hp]
      exact ih h
    · simp [List.find?_cons, hp] at h

theorem mem_insertService (x : List Char) (l : List (List Char))
    (name : List Char) (h : name ∈ insertService x l) : name = x ∨ name ∈ l := by
  induction l with
  | nil => simpa [insertService] using h
  | cons y ys ih =>
    by_cases hle : lexLe x y = true
    · simp only [insertService, if_pos hle] at h
      rcases List.mem_cons.mp h with h | h
      · exact Or.inl h
      · exact Or.inr h
    · simp only [insertService, if_neg hle] at h
      rcases List.mem_cons.mp h with h | h
      · exact Or.inr (by simp [h])
      · rcases ih h with h | h
        · exact Or.inl h
        · exact Or.inr (List.mem_cons_of_mem _ h)

theorem mem_sortServices (l : List (List Char)) (name : List Char)
    (h : name ∈ sortServices l) : name ∈ l := by
  induction l with
  | nil => simpa [sortServices] using h
  | cons x xs ih =>
    rcases mem_insertService x (sortServices xs) name h with h | h
    · simp [h]
    · exact List.mem_cons_of_mem _ (ih h)

/-- C10: the credential store keys records by the lower-cased service name.
After `add_password`, `get_password` with a service name differing only in
letter case (same lower-casing) returns the username and the decrypted
secret; `delete_password` behaves identically on service names with the same
lower-casing; and every name `list_services` returns is a lower-cased one.
`enc` and `dec` stand for the Fernet pair of the vault's key, which inverts
encryption when the master password matches. -/
theorem vault_case_insensitive (enc : List Char → List Char)
    (dec : List Char → Option (List Char)) (db : VaultDB)
    (s s' u p : List Char)
    (hfernet : ∀ x, dec (enc x) = some x)
    (hcase : pyStrLower s' = pyStrLower s)
    (hdb : ∀ row ∈ db, ∃ x, row.service = pyStrLower x) :
    getPassword dec (addPassword enc db s u p) s' = some (u, p) ∧
    deletePassword db s' = deletePassword db s ∧
    ∀ name ∈ listServices (addPassword enc db s u p), ∃ x, name = pyStrLower x := by
  refine ⟨?_, ?_, ?_⟩
  · have hfind :
        (addPassword enc db s u p).find?
          (fun row => row.service == pyStrLower s') =
          some ⟨pyStrLower s, u, enc p⟩ := by
      rw [hcase]
      unfold addPassword
      rw [find?_append_of_none _ _ _ (find?_filter_self_none db (pyStrLower s))]
      simp [List.find?_cons]
    simp only [getPassword, hfind, hfernet]
  · simp only [deletePassword, hcase]
  · intro name hname
    have hmem := mem_sortServices _ name hname
    simp only [List.mem_map] at hmem
    rcases hmem with ⟨row, hrow, hserv⟩
    rcases List.mem_append.mp hrow with hrow | hrow
    · exact hserv ▸ hdb row (List.mem_filter.mp hrow).1
    · simp at hrow
      exact ⟨s, by rw [← hserv, hrow]⟩

/-- Witness for C10 with the identity cipher pair on an empty store. -/
theorem vault_case_insensitive_witness :
    ((∀ x : List Char, (fun y : List Char => some y) ((fun y : List Char => y) x) = some x) ∧
      pyStrLower "GITHUB".toList = pyStrLower "GitHub".toList ∧
      (∀ row ∈ ([] : VaultDB), ∃ x, row.service = pyStrLower x)) ∧
    (getPassword (fun y : List Char => some y)
        (addPassword (fun y : List Char => y) []
          "GitHub".toList "alice".toList "hunter2".toList)
        "GITHUB".toList = some ("alice".toList, "hunter2".toList) ∧
      deletePassword [] "GITHUB".toList = deletePassword [] "GitHub".toList ∧
      ∀ name ∈ listServices
          (addPassword (fun y : List Char => y) []
            "GitHub".toList "alice".toList "hunter2".toList),
        ∃ x, name = pyStrLower x) :=
  ⟨⟨fun _ => rfl, by decide, by simp⟩,
    vault_case_insensitive (fun y : List Char => y) (fun y : List Char => some y) []
      "GitHub".toList "GITHUB".toList "alice".toList "hunter2".toList
      (fun _ => rfl) (by decide) (by simp)⟩

end PsswdPrj
